import Mathlib

/-!
# FlatCrypt: path codec, traversal order and validator

A shallow embedding of `main.go`.  Go strings are modelled as lists of bytes
(`len` is the list length, slicing is `take`/`drop`, `<` is the bytewise
lexicographic order).  The platform is the one named by the specification's
round-trip property: `filepath.Separator` is `/`.  The Go `int` type is
modelled by `Int`; theorems that depend on its width carry the bound
`N < 2 ^ 63` explicitly.
-/

namespace FlatCrypt

/-! ## Go strings -/

/-- One byte of a Go string. -/
abbrev Byte := Fin 256

/-- A Go string: an immutable sequence of bytes. -/
abbrev GoString := List Byte

/-- The bytes of a string literal (its UTF-8 encoding, as in a Go source file). -/
def bytes (s : String) : GoString :=
  (s.toList.flatMap String.utf8EncodeChar).map (fun b => Fin.ofNat b.toNat)

/-- Go string comparison `a < b`: bytewise lexicographic. -/
def strLt : GoString → GoString → Bool
  | [], [] => false
  | [], _ :: _ => true
  | _ :: _, [] => false
  | a :: as, b :: bs => if a < b then true else if b < a then false else strLt as bs

/-- The function `strings.Index(s, substr)`: the index of the first instance of `substr`
in `s`, `none` standing for Go's `-1`. -/
def index : GoString → GoString → Option Nat
  | [], substr => if substr.isPrefixOf [] then some 0 else none
  | c :: t, substr =>
    if substr.isPrefixOf (c :: t) then some 0 else (index t substr).map (· + 1)

/-- The replacement loop of `strings.Replace` for a non-empty `old`: find the next
instance with `Index`, copy what precedes it, write `new`, continue after the instance.
The first argument bounds the number of replacements. -/
def replaceLoop (old new : GoString) : Nat → GoString → GoString
  | 0, s => s
  | n + 1, s =>
    match index s old with
    | none => s
    | some j => s.take j ++ new ++ replaceLoop old new n (s.drop (j + old.length))

/-- The function `strings.ReplaceAll(s, old, new)` for a non-empty `old` (the program
never passes an empty one): all non-overlapping instances of `old`, found left to right,
are replaced by `new`.  Go bounds the loop by `Count(s, old)`, which is at most `len(s)`. -/
def replaceAll (s old new : GoString) : GoString :=
  if old = new then s else replaceLoop old new s.length s

/-- The splitting loop of `strings.SplitN` (`genSplit` with `sepSave = 0`): at most `n`
cuts at successive first instances of `sep`, the remainder is the last part. -/
def genSplit (sep : GoString) : Nat → GoString → List GoString
  | 0, s => [s]
  | n + 1, s =>
    match index s sep with
    | none => [s]
    | some m => s.take m :: genSplit sep n (s.drop (m + sep.length))

/-- The function `strings.SplitN(s, sep, n)` for a non-empty `sep` and `n ≥ 0` (the
program calls it with `"_!_"` and `3`): `nil` for `n = 0`, otherwise at most `n` parts,
the last one being the unsplit remainder. -/
def splitN (s sep : GoString) (n : Nat) : List GoString :=
  if n = 0 then []
  else
    let n := if n > s.length + 1 then s.length + 1 else n
    genSplit sep (n - 1) s

/-! ## `fmt.Sprintf("%03d", n)` -/

/-- The ASCII digit of `d` (`byte('0' + d)`). -/
def digitByte (d : Nat) : Byte := Fin.ofNat (48 + d)

/-- The digit loop of `fmt.fmtInteger` in base 10: `for u >= 10 { ... u = u / 10 }` and
the final digit.  The first argument is recursion fuel; `u` is always enough. -/
def decimalLoop : Nat → Nat → GoString
  | 0, u => [digitByte u]
  | fuel + 1, u =>
    if u < 10 then [digitByte u] else decimalLoop fuel (u / 10) ++ [digitByte (u % 10)]

/-- The decimal digits of `u`, most significant first, without padding. -/
def decimal (u : Nat) : GoString := decimalLoop u u

/-- The verb `%03d` applied to a Go `int`: the digits of the absolute value, padded
with zeros to the width 3, the sign of a negative number taking one place of it. -/
def fmt03d (n : Int) : GoString :=
  let negative := n < 0
  let prec := if negative then 2 else 3
  let ds := decimal n.natAbs
  let padded := List.replicate (prec - ds.length) (digitByte 0) ++ ds
  if negative then (45 : Byte) :: padded else padded

/-! ## `path/filepath` on a platform whose separator is `/` -/

/-- The constant `filepath.Separator`. -/
def Separator : Byte := 47

/-- The function `filepath.ToSlash`. -/
def toSlash (path : GoString) : GoString :=
  if Separator = 47 then path else replaceAll path [Separator] [47]

/-- The function `filepath.FromSlash`. -/
def fromSlash (path : GoString) : GoString :=
  if Separator = 47 then path else replaceAll path [47] [Separator]

/-- The elements of a path: the byte runs between separators (empty runs included). -/
def elements : GoString → List GoString
  | [] => [[]]
  | c :: t =>
    if c = Separator then [] :: elements t
    else
      match elements t with
      | [] => [[c]]
      | e :: es => (c :: e) :: es

/-- One step of the loop of `filepath.Clean` on a path element.  The state is the stack
of elements written so far (top first) and `dotdot`, the number of leading `..` elements
that cannot be removed. -/
def cleanStep (rooted : Bool) (st : List GoString × Nat) (e : GoString) :
    List GoString × Nat :=
  if e = [] then st
  else if e = [46] then st
  else if e = [46, 46] then
    if st.1.length > st.2 then (st.1.tail, st.2)
    else if !rooted then ([46, 46] :: st.1, st.1.length + 1)
    else st
  else (e :: st.1, st.2)

/-- The function `filepath.Clean` (no volume names): drop empty and `.` elements,
resolve `..` against the preceding element, and turn the empty result into `.`. -/
def clean (path : GoString) : GoString :=
  if path = [] then [46]
  else
    let rooted := path.head? = some Separator
    let st := (elements path).foldl (cleanStep rooted) ([], 0)
    let body := [Separator].intercalate st.1.reverse
    if rooted then Separator :: body
    else if body = [] then [46] else body

/-- The function `filepath.Dir`: everything up to the last separator, cleaned. -/
def dir (path : GoString) : GoString :=
  clean (path.reverse.dropWhile (fun c => c != Separator)).reverse

/-! ## The program -/

/-- The constant `maxFileNameLength`. -/
def maxFileNameLength : Nat := 255

/-- The constant `pathSeparator`. -/
def pathSeparator : GoString := bytes "_!_"

/-- The constant `illegalChars`. -/
def illegalChars : GoString := bytes "<>:\"/\\|?*"

/-- The entry type `FileInfo`; the `os.FileInfo` field is never read after the walk. -/
structure FileInfo where
  Path : GoString
  IsDir : Bool
  deriving DecidableEq

/-- Lines 197-202 of `encryptPath`: slashes become the separator token, then every
illegal character becomes an underscore.  The constant `illegalChars` is ASCII, so the
runes the Go loop ranges over are its bytes. -/
def sanitizeName (path : GoString) : GoString :=
  illegalChars.foldl (fun encryptedName char => replaceAll encryptedName [char] (bytes "_"))
    (replaceAll (toSlash path) (bytes "/") pathSeparator)

/-- Lines 197-205 of `encryptPath`: the value of `encryptedName` before the length check. -/
def encodeName (path : GoString) (fileNumber : Int) : GoString :=
  fmt03d fileNumber ++ pathSeparator ++ sanitizeName path

/-- The function `encryptPath`. -/
def encryptPath (path : GoString) (fileNumber : Int) : GoString :=
  let encryptedName := encodeName path fileNumber
  if encryptedName.length > maxFileNameLength then encryptedName.take maxFileNameLength
  else encryptedName

/-- The function `decryptPath`. -/
def decryptPath (encryptedName : GoString) : GoString :=
  let parts := splitN encryptedName pathSeparator 3
  if parts.length < 3 then encryptedName
  else fromSlash (replaceAll (parts.getD 2 []) pathSeparator (bytes "/"))

/-- The comparator passed to `sort.Slice` in `encryptDirectory`. -/
def less (fi fj : FileInfo) : Bool :=
  let iIsRoot := dir fi.Path == bytes "."
  let jIsRoot := dir fj.Path == bytes "."
  if iIsRoot != jIsRoot then iIsRoot
  else
    let iDir := dir fi.Path
    let jDir := dir fj.Path
    if iDir != jDir then strLt iDir jDir
    else if fi.IsDir != fj.IsDir then !fi.IsDir
    else strLt fi.Path fj.Path

/-- The inner loop of Go's insertion sort: the new element moves left while it is
`less` than its left neighbour.  The sorted prefix is held last element first. -/
def insertBack (x : FileInfo) : List FileInfo → List FileInfo
  | [] => [x]
  | p :: ps => if less x p then p :: insertBack x ps else x :: p :: ps

/-- The call `sort.Slice(files, less)`, modelled as the insertion sort Go runs on short
slices.  `less` is a strict total order on entries, so every sorting algorithm returns
this same list (`sortSlice_unique`). -/
def sortSlice (files : List FileInfo) : List FileInfo :=
  (files.foldl (fun acc x => insertBack x acc) []).reverse

/-- What a sort returns: the entries in an order that never puts `b` before `a` when
`less a b`. -/
def SortedByLess (out : List FileInfo) : Prop :=
  out.Pairwise (fun a b => less b a = false)

instance (out : List FileInfo) : Decidable (SortedByLess out) := by
  unfold SortedByLess; infer_instance

/-- One call of `copyFile` made by `encryptDirectory`: the entry, the value of
`globalCounter` passed to `encryptPath`, and the flat name returned. -/
structure CopyCall where
  file : FileInfo
  counter : Int
  encryptedName : GoString
  deriving DecidableEq

/-- The numbering loop of `encryptDirectory` (lines 153-168) started with the counter
value `globalCounter`: directories are skipped, every file increments the counter and is
copied under `encryptPath file.Path globalCounter`.  The result lists the copies of a
run in which no copy fails. -/
def encryptLoop : Int → List FileInfo → List CopyCall
  | _, [] => []
  | globalCounter, file :: rest =>
    if file.IsDir then encryptLoop globalCounter rest
    else
      ⟨file, globalCounter + 1, encryptPath file.Path (globalCounter + 1)⟩ ::
        encryptLoop (globalCounter + 1) rest

/-- The function `encryptDirectory` on the entries found by `filepath.Walk`, in walk
order: sort, then number and copy. -/
def encryptDirectory (files : List FileInfo) : List CopyCall :=
  encryptLoop 0 (sortSlice files)

/-- The list `longPaths` collected by `validateEncryption` (lines 72-94) over the
entries of the walk. -/
def longPaths : List FileInfo → List GoString
  | [] => []
  | info :: rest =>
    if info.IsDir then longPaths rest
    else
      let relPath := info.Path
      let encryptedName := encryptPath relPath 1
      if encryptedName.length > maxFileNameLength then relPath :: longPaths rest
      else longPaths rest

/-- The function `validateEncryption` on a walk without I/O errors: the error carries
the collected paths, `ok` is Go's `nil`. -/
def validateEncryption (walk : List FileInfo) : Except (List GoString) Unit :=
  if (longPaths walk).length > 0 then .error (longPaths walk) else .ok ()

/-! ## Auxiliary definitions used by the statements -/

/-- The decision chain of `less` on the four compared values of each entry. -/
def lessChain (ra rb : Bool) (da db : GoString) (ia ib : Bool) (pa pb : GoString) : Bool :=
  if ra != rb then ra
  else if da != db then strLt da db
  else if ia != ib then !ia
  else strLt pa pb

/-- An ASCII decimal digit, `'0'` to `'9'`. -/
def isDigit (b : Byte) : Bool := decide (48 ≤ b.val ∧ b.val ≤ 57)

/-- The number a string of decimal digits denotes. -/
def digitsValue (s : GoString) : Nat := s.foldl (fun acc b => 10 * acc + (b.val - 48)) 0

/-- The number a flat name starts with: the value of its leading run of digits. -/
def leadingNumber (name : GoString) : Nat := digitsValue (name.takeWhile isDigit)

/-- The entries `filepath.Walk` finds in the tree with the files `a.txt`, `sub/b.txt`
and `sub/deep/c.txt`, in walk order. -/
def scenarioEntries : List FileInfo :=
  [⟨bytes ".", true⟩, ⟨bytes "a.txt", false⟩, ⟨bytes "sub", true⟩,
   ⟨bytes "sub/b.txt", false⟩, ⟨bytes "sub/deep", true⟩, ⟨bytes "sub/deep/c.txt", false⟩]

/-- A file name of 250 bytes: its flat name would need 256. -/
def longName : GoString := List.replicate 250 97

/-- What the specification says becomes of one byte of the path: a slash becomes the
separator token, any other illegal character an underscore, every other byte stays. -/
def sanitizeByte (b : Byte) : GoString :=
  if b = 47 then bytes "_!_" else if b ∈ illegalChars then bytes "_" else [b]

/-- The decimal representation of `n`, most significant digit first, padded with
zeros on the left to at least three digits. -/
def zeroPadded3 (n : Nat) : GoString :=
  let ds := ((Nat.digits 10 n).reverse).map digitByte
  List.replicate (3 - ds.length) (digitByte 0) ++ ds

/-- The byte that stands for `b` when every character the sanitizer turns into an
underscore (`<`, `>`, `:`, `"`, `\`, `|`, `?`, `*`, and the underscore itself) is
identified with the underscore.  The slash is a segment separator and is left alone. -/
def underscoreClass (b : Byte) : Byte :=
  if b ∈ bytes "<>:\"\\|?*_" then 95 else b

/-- The counting loop of `strings.Count` for a non-empty `substr`: find the next
instance with `Index`, count it, continue after it.  The first argument is fuel. -/
def countLoop (substr : GoString) : Nat → GoString → Nat
  | 0, _ => 0
  | fuel + 1, s =>
    match index s substr with
    | none => 0
    | some i => 1 + countLoop substr fuel (s.drop (i + substr.length))

/-- The function `strings.Count(s, substr)` for a non-empty `substr`: the number of
non-overlapping instances of `substr` in `s`. -/
def count (s substr : GoString) : Nat := countLoop substr s.length s

/-- A path element as the walk of a tree produces it: not empty, free of separators,
and neither `.` nor `..`. -/
def normalElement (e : GoString) : Prop :=
  e ≠ [] ∧ Separator ∉ e ∧ e ≠ [46] ∧ e ≠ [46, 46]

instance (e : GoString) : Decidable (normalElement e) := by
  unfold normalElement; infer_instance

/-- The cleaned slash-separated relative path with the given elements. -/
def joinPath (es : List GoString) : GoString := [Separator].intercalate es

/-! ## Go string order -/

theorem strLt_irrefl (a : GoString) : strLt a a = false := by
  induction a with
  | nil => rfl
  | cons x xs ih => simp [strLt, ih]

theorem strLt_trans : ∀ a b c : GoString, strLt a b = true → strLt b c = true →
    strLt a c = true
  | [], [], _, h, _ => by simp [strLt] at h
  | [], _ :: _, [], _, h => by simp [strLt] at h
  | [], _ :: _, _ :: _, _, _ => by simp [strLt]
  | _ :: _, [], _, h, _ => by simp [strLt] at h
  | _ :: _, _ :: _, [], _, h => by simp [strLt] at h
  | x :: xs, y :: ys, z :: zs, hab, hbc => by
    simp only [strLt] at hab hbc ⊢
    by_cases hxy : x < y
    · by_cases hyz : y < z
      · simp [lt_trans hxy hyz]
      · simp only [hyz, if_false] at hbc
        by_cases hzy : z < y
        · simp [hzy] at hbc
        · have hyz' : y = z := le_antisymm (not_lt.mp hzy) (not_lt.mp hyz)
          subst hyz'
          simp [hxy]
    · simp only [hxy, if_false] at hab
      by_cases hyx : y < x
      · simp [hyx] at hab
      · have hxy' : x = y := le_antisymm (not_lt.mp hyx) (not_lt.mp hxy)
        subst hxy'
        simp only [hyx, if_false] at hab
        by_cases hxz : x < z
        · simp [hxz]
        · simp only [hxz, if_false] at hbc ⊢
          by_cases hzx : z < x
          · simp [hzx] at hbc
          · simp only [hzx, if_false] at hbc ⊢
            exact strLt_trans xs ys zs hab hbc

theorem strLt_total : ∀ a b : GoString, a ≠ b → strLt a b = true ∨ strLt b a = true
  | [], [], h => absurd rfl h
  | [], _ :: _, _ => by simp [strLt]
  | _ :: _, [], _ => by simp [strLt]
  | x :: xs, y :: ys, h => by
    simp only [strLt]
    by_cases hxy : x < y
    · simp [hxy]
    · by_cases hyx : y < x
      · simp [hyx]
      · have hxy' : x = y := le_antisymm (not_lt.mp hyx) (not_lt.mp hxy)
        subst hxy'
        simp only [hxy, if_false]
        exact strLt_total xs ys (fun hh => h (by rw [hh]))

theorem strLt_asymm (a b : GoString) (h : strLt a b = true) : strLt b a = false := by
  cases hba : strLt b a with
  | false => rfl
  | true => have := strLt_trans a b a h hba; simp [strLt_irrefl] at this

/-! ## The comparator is a strict total order -/

theorem less_eq_lessChain (a b : FileInfo) :
    less a b = lessChain (dir a.Path == bytes ".") (dir b.Path == bytes ".")
      (dir a.Path) (dir b.Path) a.IsDir b.IsDir a.Path b.Path := rfl

theorem lessChain_trans (ra rb rc : Bool) (da db dc : GoString) (ia ib ic : Bool)
    (pa pb pc : GoString) (hab : lessChain ra rb da db ia ib pa pb = true)
    (hbc : lessChain rb rc db dc ib ic pb pc = true) :
    lessChain ra rc da dc ia ic pa pc = true := by
  unfold lessChain at *
  by_cases h1 : da = db
  · by_cases h2 : db = dc
    · subst h1 h2
      cases ra <;> cases rb <;> cases rc <;> cases ia <;> cases ib <;> cases ic <;>
        simp_all <;> exact strLt_trans _ _ _ hab hbc
    · subst h1
      cases ra <;> cases rb <;> cases rc <;> cases ia <;> cases ib <;> cases ic <;>
        simp_all
  · by_cases h2 : db = dc
    · subst h2
      cases ra <;> cases rb <;> cases rc <;> cases ia <;> cases ib <;> cases ic <;>
        simp_all
    · have h3 : strLt da db = true → strLt db dc = true → da ≠ dc := by
        intro h h' hh
        subst hh
        have := strLt_asymm _ _ h
        simp [this] at h'
      have h4 := strLt_trans da db dc
      cases ra <;> cases rb <;> cases rc <;> simp_all

theorem less_irrefl (a : FileInfo) : less a a = false := by
  simp [less, strLt_irrefl]

theorem less_trans (a b c : FileInfo) (hab : less a b = true) (hbc : less b c = true) :
    less a c = true := by
  rw [less_eq_lessChain] at *
  exact lessChain_trans _ _ _ _ _ _ _ _ _ _ _ _ hab hbc

theorem less_total (a b : FileInfo) (h : a ≠ b) : less a b = true ∨ less b a = true := by
  have hp : a.Path ≠ b.Path ∨ a.IsDir ≠ b.IsDir := by
    by_contra hc
    push_neg at hc
    apply h
    cases a; cases b; simp_all
  unfold less
  simp only []
  by_cases hr : (dir a.Path == bytes ".") = (dir b.Path == bytes ".")
  · by_cases hd : dir a.Path = dir b.Path
    · by_cases hi : a.IsDir = b.IsDir
      · have hp' : a.Path ≠ b.Path := by
          rcases hp with hp | hp
          · exact hp
          · exact absurd hi hp
        have := strLt_total _ _ hp'
        simp [hr, hd, hi, this]
      · cases ha : a.IsDir <;> cases hb : b.IsDir <;> simp_all
    · have := strLt_total _ _ hd
      have hd' : dir b.Path ≠ dir a.Path := fun hh => hd hh.symm
      simp [hr, hd, hd', this]
  · cases ha : (dir a.Path == bytes ".") <;> cases hb : (dir b.Path == bytes ".") <;> simp_all

theorem less_asymm (a b : FileInfo) (h : less a b = true) : less b a = false := by
  cases hba : less b a with
  | false => rfl
  | true => have := less_trans a b a h hba; simp [less_irrefl] at this

theorem not_less_trans (a b c : FileInfo) (hab : less a b = false) (hbc : less b c = false) :
    less a c = false := by
  cases hac : less a c with
  | false => rfl
  | true =>
    by_cases hba : b = a
    · subst hba
      rw [hac] at hbc
      exact absurd hbc (by simp)
    · rcases less_total b a hba with h | h
      · rw [less_trans b a c h hac] at hbc
        exact absurd hbc (by simp)
      · rw [h] at hab
        exact absurd hab (by simp)

theorem eq_of_not_less (a b : FileInfo) (hab : less a b = false) (hba : less b a = false) :
    a = b := by
  by_contra hne
  rcases less_total a b hne with h | h
  · rw [h] at hab; exact absurd hab (by simp)
  · rw [h] at hba; exact absurd hba (by simp)

/-! ## The sort -/

theorem insertBack_perm (x : FileInfo) (l : List FileInfo) :
    (insertBack x l).Perm (x :: l) := by
  induction l with
  | nil => exact List.Perm.refl _
  | cons p ps ih =>
    unfold insertBack
    split
    · exact (List.Perm.cons p ih).trans (List.Perm.swap x p ps)
    · exact List.Perm.refl _

theorem insertBack_descending (x : FileInfo) (l : List FileInfo)
    (h : l.Pairwise (fun a b => less a b = false)) :
    (insertBack x l).Pairwise (fun a b => less a b = false) := by
  induction l with
  | nil => simp [insertBack]
  | cons p ps ih =>
    rw [List.pairwise_cons] at h
    unfold insertBack
    split
    · rename_i hxp
      rw [List.pairwise_cons]
      refine ⟨?_, ih h.2⟩
      intro b hb
      rcases List.mem_cons.mp ((insertBack_perm x ps).mem_iff.mp hb) with hb | hb
      · rw [hb]
        exact less_asymm x p hxp
      · exact h.1 b hb
    · rename_i hxp
      have hxp' : less x p = false := by simpa using hxp
      rw [List.pairwise_cons]
      refine ⟨?_, List.pairwise_cons.mpr h⟩
      intro b hb
      rcases List.mem_cons.mp hb with hb | hb
      · rw [hb]; exact hxp'
      · exact not_less_trans x p b hxp' (h.1 b hb)

theorem foldl_insertBack (files acc : List FileInfo)
    (h : acc.Pairwise (fun a b => less a b = false)) :
    (files.foldl (fun acc x => insertBack x acc) acc).Perm (files.reverse ++ acc) ∧
      (files.foldl (fun acc x => insertBack x acc) acc).Pairwise
        (fun a b => less a b = false) := by
  induction files generalizing acc with
  | nil => exact ⟨by simp, h⟩
  | cons x xs ih =>
    have hstep := ih (insertBack x acc) (insertBack_descending x acc h)
    refine ⟨?_, hstep.2⟩
    simp only [List.foldl_cons, List.reverse_cons, List.append_assoc, List.singleton_append]
    exact hstep.1.trans (List.Perm.append_left _ (insertBack_perm x acc))

theorem sortSlice_perm (files : List FileInfo) : (sortSlice files).Perm files := by
  unfold sortSlice
  have h := (foldl_insertBack files [] List.Pairwise.nil).1
  rw [List.append_nil] at h
  exact (List.reverse_perm _).trans (h.trans (List.reverse_perm _))

theorem sortSlice_sorted (files : List FileInfo) : SortedByLess (sortSlice files) := by
  unfold sortSlice SortedByLess
  rw [List.pairwise_reverse]
  exact (foldl_insertBack files [] List.Pairwise.nil).2

/-- Two sorted arrangements of the same entries are equal: `less` leaves the sort no
choice. -/
theorem sorted_perm_unique (l₁ l₂ : List FileInfo) (hp : l₁.Perm l₂)
    (h₁ : SortedByLess l₁) (h₂ : SortedByLess l₂) : l₁ = l₂ := by
  haveI : IsAntisymm FileInfo (fun a b => less b a = false) :=
    ⟨fun a b hab hba => eq_of_not_less a b hba hab⟩
  exact List.eq_of_perm_of_sorted hp h₁ h₂

/-- Whatever algorithm `sort.Slice` runs, its result is the list `sortSlice` returns. -/
theorem sortSlice_unique (files out : List FileInfo) (hp : out.Perm files)
    (hs : SortedByLess out) : out = sortSlice files :=
  sorted_perm_unique out (sortSlice files) (hp.trans (sortSlice_perm files).symm) hs
    (sortSlice_sorted files)

theorem sortSlice_congr (l₁ l₂ : List FileInfo) (hp : l₁.Perm l₂) :
    sortSlice l₁ = sortSlice l₂ :=
  sortSlice_unique l₂ (sortSlice l₁) ((sortSlice_perm l₁).trans hp) (sortSlice_sorted l₁)

/-! ## The numbering loop -/

theorem encryptLoop_files (c : Int) (l : List FileInfo) :
    (encryptLoop c l).map (·.file) = l.filter (fun f => !f.IsDir) := by
  induction l generalizing c with
  | nil => rfl
  | cons f fs ih =>
    unfold encryptLoop
    cases hf : f.IsDir <;> simp [hf, ih]

theorem encryptLoop_counters (c : Int) (l : List FileInfo) :
    (encryptLoop c l).map (·.counter) =
      (List.range (l.filter (fun f => !f.IsDir)).length).map
        (fun (i : Nat) => c + 1 + (i : Int)) := by
  induction l generalizing c with
  | nil => rfl
  | cons f fs ih =>
    unfold encryptLoop
    cases hf : f.IsDir
    · simp only [hf, Bool.false_eq_true, if_false, List.map_cons, Bool.not_false,
        List.filter_cons_of_pos, List.length_cons, List.range_succ_eq_map, ih (c + 1),
        List.map_map]
      refine congrArg₂ _ (by simp) (List.map_congr_left ?_)
      intro i _
      simp only [Function.comp, Nat.succ_eq_add_one, Nat.cast_add, Nat.cast_one]
      ring
    · simp [hf, ih]

theorem encryptLoop_mem (c : Int) (l : List FileInfo) :
    ∀ x ∈ encryptLoop c l, x.file ∈ l ∧ x.file.IsDir = false ∧ c < x.counter ∧
      x.counter ≤ c + l.length ∧ x.encryptedName = encryptPath x.file.Path x.counter := by
  induction l generalizing c with
  | nil => intro x hx; simp [encryptLoop] at hx
  | cons f fs ih =>
    intro x hx
    unfold encryptLoop at hx
    cases hf : f.IsDir
    · simp only [hf, Bool.false_eq_true, if_false, List.mem_cons] at hx
      rcases hx with hx | hx
      · subst hx
        simp only [List.mem_cons, true_or, List.length_cons, Nat.cast_add, Nat.cast_one,
          true_and]
        refine ⟨hf, by omega, by omega, trivial⟩
      · obtain ⟨h1, h2, h3, h4, h5⟩ := ih (c + 1) x hx
        refine ⟨List.mem_cons_of_mem _ h1, h2, by omega, ?_, h5⟩
        simp only [List.length_cons, Nat.cast_add, Nat.cast_one]
        omega
    · simp only [hf, if_true] at hx
      obtain ⟨h1, h2, h3, h4, h5⟩ := ih c x hx
      refine ⟨List.mem_cons_of_mem _ h1, h2, h3, ?_, h5⟩
      simp only [List.length_cons, Nat.cast_add, Nat.cast_one]
      omega

theorem encryptLoop_pairwise (R : FileInfo → FileInfo → Prop) (c : Int) (l : List FileInfo)
    (h : l.Pairwise R) :
    (encryptLoop c l).Pairwise (fun x y => R x.file y.file ∧ x.counter < y.counter) := by
  induction l generalizing c with
  | nil => simp [encryptLoop]
  | cons f fs ih =>
    rw [List.pairwise_cons] at h
    unfold encryptLoop
    cases hf : f.IsDir
    · simp only [hf, Bool.false_eq_true, if_false, List.pairwise_cons]
      refine ⟨?_, ih (c + 1) h.2⟩
      intro y hy
      obtain ⟨h1, _, h3, _, _⟩ := encryptLoop_mem (c + 1) fs y hy
      exact ⟨h.1 _ h1, h3⟩
    · simp only [hf, if_true]
      exact ih c h.2

theorem less_of_root (a b : FileInfo) (ha : dir a.Path = bytes ".")
    (hb : dir b.Path ≠ bytes ".") : less a b = true := by
  simp [less, ha, hb]

/-! ## The number prefix -/

theorem digitByte_val (d : Nat) (h : d < 10) : (digitByte d).val = 48 + d := by
  simp only [digitByte, Fin.ofNat, Fin.val_mk]
  omega

theorem isDigit_digitByte (d : Nat) (h : d < 10) : isDigit (digitByte d) = true := by
  simp only [isDigit, digitByte_val d h, decide_eq_true_eq]
  omega

theorem digitsValue_append_singleton (s : GoString) (b : Byte) :
    digitsValue (s ++ [b]) = 10 * digitsValue s + (b.val - 48) := by
  simp [digitsValue, List.foldl_append]

theorem decimalLoop_spec (fuel u : Nat) (h : u ≤ fuel) :
    (∀ b ∈ decimalLoop fuel u, isDigit b = true) ∧ digitsValue (decimalLoop fuel u) = u := by
  induction fuel generalizing u with
  | zero =>
    have hu : u = 0 := by omega
    subst hu
    simp only [decimalLoop, List.mem_singleton, forall_eq]
    exact ⟨isDigit_digitByte 0 (by omega), by simp [digitsValue, digitByte_val 0 (by omega)]⟩
  | succ n ih =>
    unfold decimalLoop
    split
    · rename_i hu
      simp only [List.mem_singleton, forall_eq]
      exact ⟨isDigit_digitByte u hu, by simp [digitsValue, digitByte_val u hu]⟩
    · rename_i hu
      obtain ⟨h1, h2⟩ := ih (u / 10) (by omega)
      refine ⟨?_, ?_⟩
      · intro b hb
        rcases List.mem_append.mp hb with hb | hb
        · exact h1 b hb
        · rw [List.mem_singleton.mp hb]
          exact isDigit_digitByte _ (Nat.mod_lt _ (by omega))
      · rw [digitsValue_append_singleton, h2, digitByte_val _ (Nat.mod_lt _ (by omega))]
        omega

theorem decimalLoop_length (fuel u k : Nat) (h : u ≤ fuel) (hu : u < 10 ^ (k + 1)) :
    1 ≤ (decimalLoop fuel u).length ∧ (decimalLoop fuel u).length ≤ k + 1 := by
  induction fuel generalizing u k with
  | zero => simp [decimalLoop]
  | succ n ih =>
    unfold decimalLoop
    split
    · simp
    · rename_i h10
      cases k with
      | zero => simp at hu; omega
      | succ k =>
        have hdiv : u / 10 < 10 ^ (k + 1) := by
          rw [Nat.div_lt_iff_lt_mul (by omega)]
          calc u < 10 ^ (k + 1 + 1) := hu
            _ = 10 ^ (k + 1) * 10 := by ring
        have := ih (u / 10) k (by omega) hdiv
        simp only [List.length_append, List.length_singleton]
        omega

theorem digitsValue_zeros (k : Nat) (s : GoString) :
    digitsValue (List.replicate k (digitByte 0) ++ s) = digitsValue s := by
  induction k with
  | zero => simp
  | succ k ih =>
    have h0 : ((digitByte 0).val : Nat) - 48 = 0 := by rw [digitByte_val 0 (by omega)]
    unfold digitsValue at ih ⊢
    simp only [List.replicate_succ, List.cons_append, List.foldl_cons, h0]
    exact ih

/-- For a non-negative number `%03d` writes only digits, they denote the number, and a
Go `int` gives at most 19 of them. -/
theorem fmt03d_spec (n : Int) (h0 : 0 ≤ n) :
    (∀ b ∈ fmt03d n, isDigit b = true) ∧ digitsValue (fmt03d n) = n.toNat ∧
      3 ≤ (fmt03d n).length ∧ (n < 2 ^ 63 → (fmt03d n).length ≤ 19) := by
  have hneg : ¬ n < 0 := by omega
  have habs : n.natAbs = n.toNat := by omega
  obtain ⟨hd, hv⟩ := decimalLoop_spec n.toNat n.toNat (le_refl _)
  simp only [fmt03d, hneg, if_false, habs, decimal, decide_False, Bool.false_eq_true]
  refine ⟨?_, ?_, ?_, ?_⟩
  · intro b hb
    rcases List.mem_append.mp hb with hb | hb
    · rw [(List.mem_replicate.mp hb).2]
      exact isDigit_digitByte 0 (by omega)
    · exact hd b hb
  · rw [digitsValue_zeros, hv]
  · simp only [List.length_append, List.length_replicate]
    omega
  · intro hlt
    have hu : n.toNat < 10 ^ (18 + 1) := by
      have : (2 : Int) ^ 63 < 10 ^ 19 := by norm_num
      have h2 : (n.toNat : Int) < 10 ^ 19 := by
        rw [Int.toNat_of_nonneg h0]; omega
      exact_mod_cast h2
    have := decimalLoop_length n.toNat n.toNat 18 (le_refl _) hu
    simp only [List.length_append, List.length_replicate]
    omega

theorem pathSeparator_eq : pathSeparator = [95, 33, 95] := by decide

/-- The result of `encryptPath` for a non-negative Go `int`: the number, the separator
token, and the sanitized path or, after truncation, a prefix of it. -/
theorem encryptPath_form (path : GoString) (n : Int) (h0 : 0 ≤ n) (hn : n < 2 ^ 63) :
    ∃ rest, encryptPath path n = fmt03d n ++ pathSeparator ++ rest ∧
      ((encodeName path n).length ≤ maxFileNameLength → rest = sanitizeName path) := by
  have hlen := (fmt03d_spec n h0).2.2.2 hn
  unfold encryptPath
  simp only []
  split
  · rename_i hlong
    refine ⟨(sanitizeName path).take (maxFileNameLength - ((fmt03d n).length + 3)), ?_, ?_⟩
    · have hsep : pathSeparator.length = 3 := by rw [pathSeparator_eq]; rfl
      have hle : (fmt03d n ++ pathSeparator).length ≤ maxFileNameLength := by
        simp only [List.length_append, hsep, maxFileNameLength]; omega
      unfold encodeName
      rw [List.take_append_eq_append_take, List.take_of_length_le hle]
      simp only [List.length_append, hsep]
    · intro hshort
      omega
  · exact ⟨sanitizeName path, rfl, fun _ => rfl⟩

theorem takeWhile_digits (ds t : GoString) (c : Byte) (hd : ∀ b ∈ ds, isDigit b = true)
    (hc : isDigit c = false) : (ds ++ c :: t).takeWhile isDigit = ds := by
  induction ds with
  | nil => simp [List.takeWhile, hc]
  | cons d ds ih =>
    have h1 : isDigit d = true := hd d (List.mem_cons_self _ _)
    rw [List.cons_append, List.takeWhile_cons, h1]
    simp only [if_true]
    rw [ih (fun b hb => hd b (List.mem_cons_of_mem _ hb))]

/-- The number a flat name starts with is the sequence number it was made with. -/
theorem leadingNumber_encryptPath (path : GoString) (n : Int) (h0 : 0 ≤ n)
    (hn : n < 2 ^ 63) : leadingNumber (encryptPath path n) = n.toNat := by
  obtain ⟨rest, hrest, _⟩ := encryptPath_form path n h0 hn
  obtain ⟨hd, hv, _, _⟩ := fmt03d_spec n h0
  rw [hrest, pathSeparator_eq]
  unfold leadingNumber
  simp only [List.append_assoc, List.cons_append]
  rw [takeWhile_digits (fmt03d n) _ 95 hd (by decide), hv]

theorem encryptPath_ne_of_number_ne (p₁ p₂ : GoString) (n₁ n₂ : Int) (h₁ : 0 ≤ n₁)
    (h₂ : 0 ≤ n₂) (hb₁ : n₁ < 2 ^ 63) (hb₂ : n₂ < 2 ^ 63) (hne : n₁ ≠ n₂) :
    encryptPath p₁ n₁ ≠ encryptPath p₂ n₂ := by
  intro heq
  have h := congrArg leadingNumber heq
  rw [leadingNumber_encryptPath p₁ n₁ h₁ hb₁, leadingNumber_encryptPath p₂ n₂ h₂ hb₂] at h
  omega

/-! ## Replacement of single bytes -/

theorem replaceLoop_cons_skip (old new : GoString) (n : Nat) (x : Byte)
    (t : GoString) (h : old.isPrefixOf (x :: t) = false) :
    replaceLoop old new (n + 1) (x :: t) = x :: replaceLoop old new (n + 1) t := by
  simp only [replaceLoop, index, h, Bool.false_eq_true, if_false]
  cases hi : index t old with
  | none => simp
  | some j =>
    simp only [Option.map_some', List.take_succ_cons, List.cons_append, List.cons.injEq,
      true_and]
    rw [show j + 1 + old.length = (j + old.length) + 1 by omega, List.drop_succ_cons]

theorem replaceLoop_cons_hit (old new : GoString) (n : Nat) (x : Byte)
    (t : GoString) (h : old.isPrefixOf (x :: t) = true) :
    replaceLoop old new (n + 1) (x :: t) =
      new ++ replaceLoop old new n ((x :: t).drop old.length) := by
  simp [replaceLoop, index, h]

theorem replaceLoop_byte (c : Byte) (new : GoString) (s : GoString) :
    ∀ n, s.length ≤ n →
      replaceLoop [c] new n s = s.flatMap (fun b => if b = c then new else [b]) := by
  induction s with
  | nil => intro n _; cases n <;> simp [replaceLoop, index]
  | cons x t ih =>
    intro n hn
    cases n with
    | zero => simp at hn
    | succ n =>
      simp only [List.length_cons, Nat.add_le_add_iff_right] at hn
      by_cases hx : x = c
      · subst hx
        rw [replaceLoop_cons_hit _ _ _ _ _ (by simp [List.isPrefixOf])]
        simp [ih n hn]
      · have hx' : (c == x) = false := by
          simp only [beq_eq_false_iff_ne, ne_eq]
          exact fun h => hx h.symm
        rw [replaceLoop_cons_skip _ _ _ _ _ (by simp [List.isPrefixOf, hx'])]
        simp [ih (n + 1) (by omega), hx]

/-- Replacing a one-byte `old` rewrites the string byte by byte. -/
theorem replaceAll_byte (s : GoString) (c : Byte) (new : GoString) :
    replaceAll s [c] new = s.flatMap (fun b => if b = c then new else [b]) := by
  unfold replaceAll
  split
  · rename_i h
    rw [← h]
    have : (fun b : Byte => if b = c then [c] else [b]) = fun b => [b] := by
      funext b
      split
      · rename_i hb; rw [hb]
      · rfl
    rw [this, List.flatMap_singleton']
  · exact replaceLoop_byte c new s s.length (le_refl _)

theorem foldl_replaceAll_byte (cs : GoString) (u s : GoString) :
    cs.foldl (fun acc ch => replaceAll acc [ch] u) s =
      s.flatMap (fun b => cs.foldl (fun acc ch => replaceAll acc [ch] u) [b]) := by
  induction cs generalizing s with
  | nil => simp
  | cons c cs ih =>
    simp only [List.foldl_cons]
    rw [ih, replaceAll_byte, List.flatMap_assoc]
    refine List.flatMap_congr ?_
    intro b _
    rw [ih (replaceAll [b] [c] u), replaceAll_byte, List.flatMap_singleton]

set_option maxRecDepth 1000000 in
theorem sanitizeName_singleton : ∀ b : Byte, sanitizeName [b] = sanitizeByte b := by
  decide

/-- The loop of `encryptPath` over `illegalChars`, after the replacement of the
slashes, does to every byte what `sanitizeByte` says. -/
theorem sanitizeName_eq (path : GoString) : sanitizeName path = path.flatMap sanitizeByte := by
  have hslash : bytes "/" = [47] := by decide
  have hto : toSlash path = path := by simp [toSlash, Separator]
  have hone : ∀ b : Byte, sanitizeName [b] =
      illegalChars.foldl (fun acc ch => replaceAll acc [ch] (bytes "_"))
        (if b = 47 then pathSeparator else [b]) := by
    intro b
    have hto' : toSlash [b] = [b] := by simp [toSlash, Separator]
    unfold sanitizeName
    rw [hto', hslash, replaceAll_byte, List.flatMap_singleton]
  unfold sanitizeName
  rw [hto, hslash, replaceAll_byte, foldl_replaceAll_byte, List.flatMap_assoc]
  refine List.flatMap_congr ?_
  intro b _
  rw [← sanitizeName_singleton b, hone b]
  exact (foldl_replaceAll_byte illegalChars (bytes "_") _).symm

/-! ## The number prefix as a decimal representation -/

theorem decimalLoop_eq_digits (fuel u : Nat) (h : u ≤ fuel) (hu : 0 < u) :
    decimalLoop fuel u = ((Nat.digits 10 u).reverse).map digitByte := by
  induction fuel generalizing u with
  | zero => omega
  | succ n ih =>
    unfold decimalLoop
    split
    · rename_i h10
      rw [Nat.digits_of_lt 10 u (by omega) h10]
      rfl
    · rename_i h10
      rw [Nat.digits_def' (by omega) hu, ih (u / 10) (by omega) (by omega)]
      simp

theorem fmt03d_eq_zeroPadded3 (n : Int) (h0 : 0 ≤ n) : fmt03d n = zeroPadded3 n.toNat := by
  have hneg : ¬ n < 0 := by omega
  have habs : n.natAbs = n.toNat := by omega
  simp only [fmt03d, hneg, if_false, habs, decimal, decide_False, Bool.false_eq_true,
    zeroPadded3]
  by_cases hz : n.toNat = 0
  · rw [hz]
    simp [decimalLoop, List.replicate]
  · rw [decimalLoop_eq_digits _ _ (le_refl _) (by omega)]

theorem zeroPadded3_three_digits (u : Nat) (hu : u < 1000) :
    zeroPadded3 u = [digitByte (u / 100), digitByte (u / 10 % 10), digitByte (u % 10)] := by
  unfold zeroPadded3
  by_cases h0 : u = 0
  · subst h0
    simp [List.replicate]
  · by_cases h10 : u < 10
    · rw [Nat.digits_of_lt 10 u h0 h10]
      have e1 : u / 100 = 0 := by omega
      have e2 : u / 10 % 10 = 0 := by omega
      have e3 : u % 10 = u := by omega
      simp [List.replicate, e1, e2, e3]
    · by_cases h100 : u < 100
      · rw [Nat.digits_def' (by omega) (by omega),
          Nat.digits_of_lt 10 (u / 10) (by omega) (by omega)]
        have e1 : u / 100 = 0 := by omega
        have e2 : u / 10 % 10 = u / 10 := by omega
        simp [List.replicate, e1, e2]
      · rw [Nat.digits_def' (by omega) (by omega),
          Nat.digits_def' (by omega) (by omega),
          Nat.digits_of_lt 10 (u / 10 / 10) (by omega) (by omega)]
        have e1 : u / 10 / 10 = u / 100 := by omega
        simp [List.replicate, e1]

theorem zeroPadded3_four_digits (u : Nat) (hu : 1000 ≤ u) :
    4 ≤ (zeroPadded3 u).length := by
  unfold zeroPadded3
  rw [Nat.digits_def' (by omega) (by omega), Nat.digits_def' (by omega) (by omega),
    Nat.digits_def' (by omega) (by omega), Nat.digits_def' (by omega) (by omega)]
  simp only [List.reverse_cons, List.map_append, List.length_append, List.length_map,
    List.length_replicate, List.length_reverse, List.length_cons, List.length_nil,
    List.map_cons, List.map_nil]
  omega

/-! ## The validator -/

theorem encryptPath_length_le (path : GoString) (n : Int) :
    (encryptPath path n).length ≤ maxFileNameLength := by
  unfold encryptPath
  simp only []
  split
  · rw [List.length_take]; exact Nat.min_le_left _ _
  · omega

theorem longPaths_eq_nil (walk : List FileInfo) : longPaths walk = [] := by
  induction walk with
  | nil => rfl
  | cons info rest ih =>
    unfold longPaths
    have h := encryptPath_length_le info.Path 1
    have hshort : ¬ (encryptPath info.Path 1).length > maxFileNameLength := by omega
    simp only [ih, hshort, if_false, ite_self]

theorem validateEncryption_ok (walk : List FileInfo) : validateEncryption walk = .ok () := by
  simp [validateEncryption, longPaths_eq_nil]

/-! ## The bytes of a flat name -/

theorem fmt03d_bytes (n : Int) : ∀ b ∈ fmt03d n, isDigit b = true ∨ b = 45 := by
  intro b hb
  have hd := (decimalLoop_spec n.natAbs n.natAbs (le_refl _)).1
  have hpad : ∀ k, ∀ c ∈ List.replicate k (digitByte 0) ++ decimal n.natAbs,
      isDigit c = true := by
    intro k c hc
    rcases List.mem_append.mp hc with hc | hc
    · rw [(List.mem_replicate.mp hc).2]
      exact isDigit_digitByte 0 (by omega)
    · exact hd c hc
  unfold fmt03d at hb
  simp only [] at hb
  split at hb
  · rcases List.mem_cons.mp hb with hb | hb
    · exact Or.inr hb
    · exact Or.inl (hpad _ b hb)
  · exact Or.inl (hpad _ b hb)

theorem illegalChars_eq : illegalChars = [60, 62, 58, 34, 47, 92, 124, 63, 42] := by
  decide

theorem legal_of_digit_or_minus (b : Byte) (h : isDigit b = true ∨ b = 45) :
    b ∉ illegalChars := by
  intro hmem
  rw [illegalChars_eq] at hmem
  simp only [List.mem_cons, List.mem_singleton, List.not_mem_nil, or_false] at hmem
  rcases hmem with rfl | rfl | rfl | rfl | rfl | rfl | rfl | rfl | rfl <;>
    exact absurd h (by decide)

set_option maxRecDepth 100000 in
theorem pathSeparator_legal : ∀ b ∈ pathSeparator, b ∉ illegalChars := by
  decide

set_option maxRecDepth 100000 in
theorem underscore_legal : ∀ b ∈ bytes "_", b ∉ illegalChars := by
  decide

theorem sanitizeByte_legal (b : Byte) : ∀ c ∈ sanitizeByte b, c ∉ illegalChars := by
  intro c hc
  unfold sanitizeByte at hc
  split at hc
  · exact pathSeparator_legal c hc
  · split at hc
    · exact underscore_legal c hc
    · rename_i hb
      rw [List.mem_singleton.mp hc]
      exact hb

theorem encodeName_eq (path : GoString) (n : Int) :
    encodeName path n = fmt03d n ++ pathSeparator ++ path.flatMap sanitizeByte := by
  unfold encodeName
  rw [sanitizeName_eq]

theorem encodeName_legal (path : GoString) (n : Int) :
    ∀ b ∈ encodeName path n, b ∉ illegalChars := by
  intro b hb
  rw [encodeName_eq, List.append_assoc] at hb
  rcases List.mem_append.mp hb with hb | hb
  · exact legal_of_digit_or_minus b (fmt03d_bytes n b hb)
  · rcases List.mem_append.mp hb with hb | hb
    · exact pathSeparator_legal b hb
    · obtain ⟨a, _, ha⟩ := List.mem_flatMap.mp hb
      exact sanitizeByte_legal a b ha

theorem encryptPath_eq_take (path : GoString) (n : Int) :
    encryptPath path n = (encodeName path n).take maxFileNameLength := by
  unfold encryptPath
  simp only []
  split
  · rfl
  · rw [List.take_of_length_le (by omega)]

set_option maxRecDepth 1000000 in
theorem sanitizeByte_underscoreClass :
    ∀ b : Byte, sanitizeByte (underscoreClass b) = sanitizeByte b := by
  decide

/-! ## Splitting and counting -/

theorem index_some_le (sep : GoString) : ∀ (s : GoString) (i : Nat),
    index s sep = some i → i + sep.length ≤ s.length := by
  intro s
  induction s with
  | nil =>
    intro i h
    unfold index at h
    split at h
    · rename_i hp
      have := (List.isPrefixOf_iff_prefix.mp hp).length_le
      simp only [Option.some.injEq] at h
      simp only [List.length_nil] at this ⊢
      omega
    · exact absurd h (by simp)
  | cons c t ih =>
    intro i h
    unfold index at h
    split at h
    · rename_i hp
      have := (List.isPrefixOf_iff_prefix.mp hp).length_le
      simp only [Option.some.injEq] at h
      omega
    · cases hj : index t sep with
      | none => rw [hj] at h; exact absurd h (by simp)
      | some j =>
        rw [hj] at h
        simp only [Option.map_some', Option.some.injEq] at h
        have := ih j hj
        simp only [List.length_cons]
        omega

theorem genSplit_of_index_none (sep s : GoString) (n : Nat) (h : index s sep = none) :
    genSplit sep n s = [s] := by
  cases n <;> simp [genSplit, h]

theorem countLoop_of_index_none (sep s : GoString) (n : Nat) (h : index s sep = none) :
    countLoop sep n s = 0 := by
  cases n <;> simp [countLoop, h]

/-- The name splits into fewer than three parts exactly when it holds fewer than two
non-overlapping instances of the separator. -/
theorem splitN_three_lt_iff (s sep : GoString) (hsep : 0 < sep.length) :
    (splitN s sep 3).length < 3 ↔ count s sep < 2 := by
  unfold splitN count
  simp only [OfNat.ofNat_ne_zero, if_false]
  cases hi : index s sep with
  | none =>
    rw [genSplit_of_index_none sep s _ hi, countLoop_of_index_none sep s _ hi]
    simp
  | some m =>
    have hlen := index_some_le sep s m hi
    by_cases hshort : 3 > s.length + 1
    · have hs1 : s.length = 1 := by omega
      simp only [hshort, if_true, hs1]
      simp [genSplit, countLoop, hi]
    · simp only [hshort, if_false]
      obtain ⟨k, hk⟩ : ∃ k, s.length = k + 2 := ⟨s.length - 2, by omega⟩
      rw [hk]
      simp only [Nat.add_one_sub_one, genSplit, countLoop, hi]
      cases hi2 : index (s.drop (m + sep.length)) sep with
      | none => simp
      | some m2 => simp; omega

/-! ## Parent directories of cleaned relative paths -/

theorem joinPath_singleton (e : GoString) : joinPath [e] = e := by
  simp [joinPath, List.intercalate, List.intersperse]

theorem joinPath_cons_cons (e e' : GoString) (es : List GoString) :
    joinPath (e :: e' :: es) = e ++ Separator :: joinPath (e' :: es) := by
  simp [joinPath, List.intercalate, List.intersperse]

theorem joinPath_append (ds sub : List GoString) (hds : ds ≠ []) (hsub : sub ≠ []) :
    joinPath (ds ++ sub) = joinPath ds ++ Separator :: joinPath sub := by
  induction ds with
  | nil => exact absurd rfl hds
  | cons d ds ih =>
    cases ds with
    | nil =>
      cases sub with
      | nil => exact absurd rfl hsub
      | cons x xs => rw [List.singleton_append, joinPath_cons_cons, joinPath_singleton]
    | cons d' ds =>
      rw [List.cons_append, List.cons_append, joinPath_cons_cons, joinPath_cons_cons,
        ← List.cons_append, ih (by simp)]
      simp

theorem elements_append_separator (e t : GoString) (he : Separator ∉ e) :
    elements (e ++ Separator :: t) = e :: elements t := by
  induction e with
  | nil => simp [elements]
  | cons c e ih =>
    have hc : c ≠ Separator := fun h => he (by rw [h]; exact List.mem_cons_self _ _)
    have he' : Separator ∉ e := fun h => he (List.mem_cons_of_mem _ h)
    rw [List.cons_append, elements, if_neg hc, ih he']

theorem elements_joinPath_append (es : List GoString) (t : GoString) (hes : es ≠ [])
    (hsep : ∀ e ∈ es, Separator ∉ e) :
    elements (joinPath es ++ Separator :: t) = es ++ elements t := by
  induction es with
  | nil => exact absurd rfl hes
  | cons e es ih =>
    have he : Separator ∉ e := hsep e (List.mem_cons_self _ _)
    cases es with
    | nil => rw [joinPath_singleton, elements_append_separator e t he]; rfl
    | cons e' es =>
      rw [joinPath_cons_cons, List.append_assoc, List.cons_append,
        elements_append_separator _ _ he,
        ih (by simp) (fun x hx => hsep x (List.mem_cons_of_mem _ hx))]
      rfl

theorem foldl_cleanStep_normal (rooted : Bool) (es st : List GoString) (d : Nat)
    (hes : ∀ e ∈ es, normalElement e) :
    es.foldl (cleanStep rooted) (st, d) = (es.reverse ++ st, d) := by
  induction es generalizing st with
  | nil => rfl
  | cons e es ih =>
    obtain ⟨h1, _, h3, h4⟩ := hes e (List.mem_cons_self _ _)
    rw [List.foldl_cons]
    have hstep : cleanStep rooted (st, d) e = (e :: st, d) := by
      simp [cleanStep, h1, h3, h4]
    rw [hstep, ih (e :: st) (fun x hx => hes x (List.mem_cons_of_mem _ hx))]
    simp

theorem joinPath_head (es : List GoString) (hes : es ≠ [])
    (hn : ∀ e ∈ es, normalElement e) (t : GoString) :
    ∃ c r, joinPath es ++ t = c :: r ∧ c ≠ Separator := by
  cases es with
  | nil => exact absurd rfl hes
  | cons e es =>
    obtain ⟨h1, h2, _, _⟩ := hn e (List.mem_cons_self _ _)
    cases e with
    | nil => exact absurd rfl h1
    | cons c e =>
      have hc : c ≠ Separator := fun h => h2 (by rw [h]; exact List.mem_cons_self _ _)
      cases es with
      | nil => exact ⟨c, e ++ t, by rw [joinPath_singleton]; rfl, hc⟩
      | cons e' es =>
        exact ⟨c, e ++ Separator :: joinPath (e' :: es) ++ t,
          by rw [joinPath_cons_cons]; simp, hc⟩

/-- Cleaning a cleaned relative path followed by a separator gives the path back. -/
theorem clean_joinPath_separator (es : List GoString) (hes : es ≠ [])
    (hn : ∀ e ∈ es, normalElement e) : clean (joinPath es ++ [Separator]) = joinPath es := by
  obtain ⟨c, r, hcr, hc⟩ := joinPath_head es hes hn [Separator]
  obtain ⟨c', r', hcr', _⟩ := joinPath_head es hes hn []
  rw [List.append_nil] at hcr'
  have hel : elements (joinPath es ++ [Separator]) = es ++ [[]] := by
    rw [elements_joinPath_append es [] hes (fun e he => (hn e he).2.1)]
    rfl
  have hne : joinPath es ++ [Separator] ≠ [] := by simp
  have hroot : ¬ (joinPath es ++ [Separator]).head? = some Separator := by
    rw [hcr]
    simp only [List.head?_cons, Option.some.injEq]
    exact hc
  have hbody : ¬ joinPath es = [] := by rw [hcr']; simp
  unfold clean
  simp only [hne, if_false, hel, List.foldl_append, hroot, decide_False,
    foldl_cleanStep_normal false es [] 0 hn, List.foldl_cons, List.foldl_nil,
    List.append_nil, cleanStep, if_true, List.reverse_reverse, Bool.false_eq_true]
  rw [show [Separator].intercalate es = joinPath es from rfl]
  simp only [hbody, if_false]

theorem dropWhile_append_of_all (p : Byte → Bool) (a b : GoString)
    (h : ∀ x ∈ a, p x = true) : (a ++ b).dropWhile p = b.dropWhile p := by
  induction a with
  | nil => rfl
  | cons x a ih =>
    rw [List.cons_append, List.dropWhile_cons, h x (List.mem_cons_self _ _)]
    simp only [if_true]
    exact ih (fun y hy => h y (List.mem_cons_of_mem _ hy))

/-- The parent directory of a cleaned relative path: `.` for a single element, the
path of the leading elements otherwise. -/
theorem dir_joinPath (es : List GoString) (name : GoString)
    (hn : ∀ e ∈ es, normalElement e) (hname : normalElement name) :
    dir (joinPath (es ++ [name])) = if es = [] then bytes "." else joinPath es := by
  have hall : ∀ x ∈ name.reverse, (fun c => c != Separator) x = true := by
    intro x hx
    have hx' : x ∈ name := List.mem_reverse.mp hx
    simp only [bne_iff_ne, ne_eq]
    intro hxs
    exact hname.2.1 (by rw [← hxs]; exact hx')
  unfold dir
  by_cases hes : es = []
  · subst hes
    rw [List.nil_append, joinPath_singleton, if_pos rfl]
    have := dropWhile_append_of_all (fun c => c != Separator) name.reverse [] hall
    rw [List.append_nil] at this
    rw [this]
    decide
  · rw [if_neg hes, joinPath_append es [name] hes (by simp), joinPath_singleton]
    have hrev : (joinPath es ++ Separator :: name).reverse =
        name.reverse ++ (Separator :: (joinPath es).reverse) := by simp
    rw [hrev, dropWhile_append_of_all _ _ _ hall, List.dropWhile_cons]
    simp only [bne_self_eq_false, Bool.false_eq_true, if_false, List.reverse_cons,
      List.reverse_reverse]
    exact clean_joinPath_separator es hes hn

theorem joinPath_ne_dot (es : List GoString) (hes : es ≠ [])
    (hn : ∀ e ∈ es, normalElement e) : joinPath es ≠ bytes "." := by
  intro h
  have h1 := elements_joinPath_append es [] hes (fun e he => (hn e he).2.1)
  rw [h] at h1
  have h2 : elements (bytes "." ++ Separator :: []) = [[46], []] := by decide
  rw [h2] at h1
  cases es with
  | nil => exact absurd rfl hes
  | cons e es =>
    have he : e = [46] := by
      have := congrArg List.head? h1
      simpa using this.symm
    exact (hn e (List.mem_cons_self _ _)).2.2.1 he

theorem strLt_append_cons (a t : GoString) (c : Byte) : strLt a (a ++ c :: t) = true := by
  induction a with
  | nil => rfl
  | cons x a ih => simp [strLt, ih]

theorem sublist_pair_of_mem (a b : FileInfo) (l : List FileInfo) (ha : a ∈ l) (hb : b ∈ l)
    (hab : a ≠ b) : List.Sublist [a, b] l ∨ List.Sublist [b, a] l := by
  induction l with
  | nil => simp at ha
  | cons x t ih =>
    by_cases hax : a = x
    · subst hax
      have hbt : b ∈ t := by
        rcases List.mem_cons.mp hb with h | h
        · exact absurd h.symm hab
        · exact h
      exact Or.inl (List.Sublist.cons₂ _ (List.singleton_sublist.mpr hbt))
    · have hat : a ∈ t := by
        rcases List.mem_cons.mp ha with h | h
        · exact absurd h hax
        · exact h
      by_cases hbx : b = x
      · subst hbx
        exact Or.inr (List.Sublist.cons₂ _ (List.singleton_sublist.mpr hat))
      · have hbt : b ∈ t := by
          rcases List.mem_cons.mp hb with h | h
          · exact absurd h hbx
          · exact h
        rcases ih hat hbt with h | h
        · exact Or.inl (List.Sublist.cons _ h)
        · exact Or.inr (List.Sublist.cons _ h)

/-! ## The claims -/

set_option maxRecDepth 100000 in
/-- C1 (code defect): the path `a.txt` has no separator token and no illegal character,
and its flat name `001_!_a.txt` fits in 255 bytes, yet `decryptPath` returns that flat
name unchanged instead of `a.txt`; for `sub/b.txt` it returns `b.txt`. -/
theorem decryptPath_encryptPath_not_inverse :
    index (bytes "a.txt") pathSeparator = none ∧
    (∀ c ∈ bytes "a.txt", c ∉ illegalChars) ∧
    (encryptPath (bytes "a.txt") 1).length ≤ 255 ∧
    encryptPath (bytes "a.txt") 1 = bytes "001_!_a.txt" ∧
    decryptPath (encryptPath (bytes "a.txt") 1) = bytes "001_!_a.txt" ∧
    decryptPath (encryptPath (bytes "a.txt") 1) ≠ bytes "a.txt" ∧
    decryptPath (encryptPath (bytes "sub/b.txt") 2) = bytes "b.txt" := by
  decide

set_option maxRecDepth 100000 in
/-- C2 (code defect): `decryptPath` leaves `001_!_a.txt` as it is, because the name
splits into two parts only, and turns `002_!_sub_!_b.txt` into `b.txt`, dropping the
directory `sub`. -/
theorem decryptPath_scenario :
    splitN (bytes "001_!_a.txt") pathSeparator 3 = [bytes "001", bytes "a.txt"] ∧
    decryptPath (bytes "001_!_a.txt") = bytes "001_!_a.txt" ∧
    splitN (bytes "002_!_sub_!_b.txt") pathSeparator 3 =
      [bytes "002", bytes "sub", bytes "b.txt"] ∧
    decryptPath (bytes "002_!_sub_!_b.txt") = bytes "b.txt" := by
  decide

set_option maxRecDepth 100000 in
/-- C3 (code defect): a file whose name is 250 bytes long has an encoded form of 256
bytes, yet `validateEncryption` collects no path and returns no error, because
`encryptPath` has already cut the name to 255 bytes. -/
theorem validateEncryption_misses_long_name :
    (encodeName longName 1).length = 256 ∧
    (encryptPath longName 1).length = 255 ∧
    longPaths [⟨longName, false⟩] = [] ∧
    validateEncryption [⟨longName, false⟩] = .ok () :=
  ⟨by decide, by decide, longPaths_eq_nil _, validateEncryption_ok _⟩

/-- C4: the flat names of one run are pairwise distinct, truncated names included, and
two calls of `encryptPath` with different positive numbers never return the same name.
The bound `2 ^ 63` is the range of the Go `int` that holds the counter and the slice
length; the paths need not be distinct. -/
theorem flat_names_distinct (files : List FileInfo) (hlen : files.length < 2 ^ 63)
    (p₁ p₂ : GoString) (n₁ n₂ : Int) (h₁ : 0 < n₁) (h₂ : 0 < n₂)
    (hb₁ : n₁ < 2 ^ 63) (hb₂ : n₂ < 2 ^ 63) (hne : n₁ ≠ n₂) :
    ((encryptDirectory files).map (·.encryptedName)).Nodup ∧
      encryptPath p₁ n₁ ≠ encryptPath p₂ n₂ := by
  refine ⟨?_, encryptPath_ne_of_number_ne p₁ p₂ n₁ n₂ (by omega) (by omega) hb₁ hb₂ hne⟩
  unfold encryptDirectory List.Nodup
  rw [List.pairwise_map]
  have hlen' : ((sortSlice files).length : Int) < 2 ^ 63 := by
    rw [(sortSlice_perm files).length_eq]
    exact_mod_cast hlen
  refine (encryptLoop_pairwise (fun _ _ => True) 0 (sortSlice files)
    (List.pairwise_of_forall (fun _ _ => trivial))).imp_of_mem ?_
  intro x y hx hy hxy
  obtain ⟨_, _, hx3, hx4, hx5⟩ := encryptLoop_mem 0 _ x hx
  obtain ⟨_, _, hy3, hy4, hy5⟩ := encryptLoop_mem 0 _ y hy
  rw [hx5, hy5]
  exact encryptPath_ne_of_number_ne _ _ _ _ (by omega) (by omega) (by omega) (by omega)
    (by omega)

set_option maxRecDepth 100000 in
/-- C4, at the scenario tree and at two names of 300 bytes that are both truncated. -/
theorem flat_names_distinct_witness :
    ((encryptDirectory scenarioEntries).map (·.encryptedName)).Nodup ∧
      encryptPath (List.replicate 300 97) 1 ≠ encryptPath (List.replicate 300 97) 2 :=
  flat_names_distinct scenarioEntries (by decide) (List.replicate 300 97)
    (List.replicate 300 97) 1 2 (by decide) (by decide) (by decide) (by decide) (by decide)

/-- C5: whatever the order in which the walk delivers the six entries of the scenario
tree, the files are copied under `001_!_a.txt`, `002_!_sub_!_b.txt` and
`003_!_sub_!_deep_!_c.txt`, in that order. -/
theorem scenario_flat_names (files : List FileInfo) (h : files.Perm scenarioEntries) :
    (encryptDirectory files).map (·.encryptedName) =
      [bytes "001_!_a.txt", bytes "002_!_sub_!_b.txt", bytes "003_!_sub_!_deep_!_c.txt"] := by
  unfold encryptDirectory
  rw [sortSlice_congr files scenarioEntries h]
  decide

/-- C5, with the entries delivered in reverse walk order. -/
theorem scenario_flat_names_witness :
    (encryptDirectory scenarioEntries.reverse).map (·.encryptedName) =
      [bytes "001_!_a.txt", bytes "002_!_sub_!_b.txt", bytes "003_!_sub_!_deep_!_c.txt"] :=
  scenario_flat_names scenarioEntries.reverse (by decide)

/-- C6: the loop calls `encryptPath` once per file entry, in list order, and the
counter values it passes increase strictly from one call to every later call. -/
theorem counters_strictly_increase (files : List FileInfo) :
    (encryptLoop 0 files).map (·.file) = files.filter (fun f => !f.IsDir) ∧
      (∀ x ∈ encryptLoop 0 files, x.encryptedName = encryptPath x.file.Path x.counter) ∧
      (encryptLoop 0 files).Pairwise (fun x y => x.counter < y.counter) := by
  refine ⟨encryptLoop_files 0 files, fun x hx => (encryptLoop_mem 0 files x hx).2.2.2.2, ?_⟩
  exact (encryptLoop_pairwise (fun _ _ => True) 0 files
    (List.pairwise_of_forall (fun _ _ => trivial))).imp (fun h => h.2)

/-- C7: the numbers handed out are exactly `1, 2, ..., k` for the `k` file entries of
the list, wherever the directory entries stand; this holds for the loop on any list and
for `encryptDirectory` on the entries of a walk. -/
theorem counters_are_one_to_k (files : List FileInfo) :
    (encryptLoop 0 files).map (·.counter) =
        (List.range (files.filter (fun f => !f.IsDir)).length).map
          (fun (i : Nat) => (i : Int) + 1) ∧
      (encryptDirectory files).map (·.counter) =
        (List.range (files.filter (fun f => !f.IsDir)).length).map
          (fun (i : Nat) => (i : Int) + 1) := by
  have key : ∀ l : List FileInfo, (encryptLoop 0 l).map (·.counter) =
      (List.range (l.filter (fun f => !f.IsDir)).length).map
        (fun (i : Nat) => (i : Int) + 1) := by
    intro l
    rw [encryptLoop_counters]
    refine List.map_congr_left ?_
    intro i _
    ring
  refine ⟨key files, ?_⟩
  unfold encryptDirectory
  rw [key, ((sortSlice_perm files).filter _).length_eq]

/-- C8: two walks that deliver the same entries in different orders lead to the same
copies: same files, same numbers, same flat names, in the same order.  The paths need
not be distinct. -/
theorem encryptDirectory_order_independent (l₁ l₂ : List FileInfo) (h : l₁.Perm l₂) :
    encryptDirectory l₁ = encryptDirectory l₂ := by
  unfold encryptDirectory
  rw [sortSlice_congr l₁ l₂ h]

/-- C8, at the scenario tree in walk order and in reverse walk order. -/
theorem encryptDirectory_order_independent_witness :
    encryptDirectory scenarioEntries.reverse = encryptDirectory scenarioEntries :=
  encryptDirectory_order_independent scenarioEntries.reverse scenarioEntries (by decide)

/-- C9: in the sorted list no entry outside the root directory stands before an entry
of the root directory, and every file of the root directory gets a smaller number than
every file of a subdirectory. -/
theorem root_entries_first (files : List FileInfo) :
    (sortSlice files).Pairwise
        (fun a b => dir b.Path = bytes "." → dir a.Path = bytes ".") ∧
      ∀ c₁ ∈ encryptDirectory files, ∀ c₂ ∈ encryptDirectory files,
        dir c₁.file.Path = bytes "." → dir c₂.file.Path ≠ bytes "." →
          c₁.counter < c₂.counter := by
  have hs : (sortSlice files).Pairwise (fun a b => less b a = false) :=
    sortSlice_sorted files
  constructor
  · refine hs.imp ?_
    intro a b hba hb
    by_contra ha
    rw [less_of_root b a hb ha] at hba
    exact absurd hba (by simp)
  · intro c₁ h₁ c₂ h₂ hr₁ hr₂
    have hp := encryptLoop_pairwise _ 0 _ hs
    have hsym : (encryptLoop 0 (sortSlice files)).Pairwise
        (fun x y => (less y.file x.file = false ∧ x.counter < y.counter) ∨
          (less x.file y.file = false ∧ y.counter < x.counter)) :=
      hp.imp (fun h => Or.inl h)
    have hne : c₁ ≠ c₂ := by
      intro heq
      rw [heq] at hr₁
      exact hr₂ hr₁
    rcases hsym.forall (fun x y hxy => hxy.symm) h₁ h₂ hne with h | h
    · exact h.2
    · rw [less_of_root _ _ hr₁ hr₂] at h
      exact absurd h.1 (by simp)

/-- C10 (the claim fails for a number of four digits): with the number 1000 the flat
name of `a` is `1000_!_a`; no three bytes followed by the separator token open it. -/
theorem encryptPath_1000_four_digits :
    encryptPath (bytes "a") 1000 = bytes "1000_!_a" ∧
      ¬ ∃ d₁ d₂ d₃ rest,
        encryptPath (bytes "a") 1000 = [d₁, d₂, d₃] ++ pathSeparator ++ rest := by
  refine ⟨by decide, ?_⟩
  rintro ⟨d₁, d₂, d₃, rest, h⟩
  rw [show encryptPath (bytes "a") 1000 = [49, 48, 48, 48, 95, 33, 95, 97] by decide,
    pathSeparator_eq] at h
  simp at h

/-- C10 (amended): for a positive Go `int` the flat name opens with the decimal
representation of the number, zero-padded to at least three digits, then the separator
token; the digits are exactly three, `N / 100`, `N / 10 % 10` and `N % 10`, when
`N < 1000`, and four or more when `N ≥ 1000`.  When the whole name fits in 255 bytes the
rest is the path with every slash replaced by the separator token and every other
illegal character replaced by an underscore. -/
theorem encryptPath_structure (path : GoString) (n : Int) (h1 : 1 ≤ n) (hn : n < 2 ^ 63) :
    (∃ rest, encryptPath path n = zeroPadded3 n.toNat ++ pathSeparator ++ rest) ∧
    (∀ b ∈ zeroPadded3 n.toNat, isDigit b = true) ∧
    (n < 1000 → zeroPadded3 n.toNat =
      [digitByte (n.toNat / 100), digitByte (n.toNat / 10 % 10), digitByte (n.toNat % 10)]) ∧
    (1000 ≤ n → 4 ≤ (zeroPadded3 n.toNat).length) ∧
    ((zeroPadded3 n.toNat ++ pathSeparator ++ path.flatMap sanitizeByte).length
        ≤ maxFileNameLength →
      encryptPath path n =
        zeroPadded3 n.toNat ++ pathSeparator ++ path.flatMap sanitizeByte) := by
  have h0 : 0 ≤ n := by omega
  have hfmt := fmt03d_eq_zeroPadded3 n h0
  obtain ⟨rest, hrest, hshort⟩ := encryptPath_form path n h0 hn
  refine ⟨⟨rest, by rw [hrest, hfmt]⟩, ?_, ?_, ?_, ?_⟩
  · rw [← hfmt]
    exact (fmt03d_spec n h0).1
  · intro hlt
    exact zeroPadded3_three_digits n.toNat (by omega)
  · intro hge
    exact zeroPadded3_four_digits n.toNat (by omega)
  · intro hfit
    have hname : encodeName path n =
        zeroPadded3 n.toNat ++ pathSeparator ++ path.flatMap sanitizeByte := by
      unfold encodeName
      rw [hfmt, sanitizeName_eq]
    rw [← hname] at hfit ⊢
    rw [hrest, hshort hfit]
    rfl

/-- C10 (amended), at the path `sub/a:b` and the number 7. -/
theorem encryptPath_structure_witness :
    (∃ rest, encryptPath (bytes "sub/a:b") 7 =
      zeroPadded3 (7 : Int).toNat ++ pathSeparator ++ rest) ∧
    (∀ b ∈ zeroPadded3 (7 : Int).toNat, isDigit b = true) ∧
    ((7 : Int) < 1000 → zeroPadded3 (7 : Int).toNat =
      [digitByte ((7 : Int).toNat / 100), digitByte ((7 : Int).toNat / 10 % 10),
        digitByte ((7 : Int).toNat % 10)]) ∧
    ((1000 : Int) ≤ 7 → 4 ≤ (zeroPadded3 (7 : Int).toNat).length) ∧
    ((zeroPadded3 (7 : Int).toNat ++ pathSeparator ++
        (bytes "sub/a:b").flatMap sanitizeByte).length ≤ maxFileNameLength →
      encryptPath (bytes "sub/a:b") 7 =
        zeroPadded3 (7 : Int).toNat ++ pathSeparator ++
          (bytes "sub/a:b").flatMap sanitizeByte) :=
  encryptPath_structure (bytes "sub/a:b") 7 (by decide) (by decide)

/-- C11: whatever bytes the path holds and whatever the number is, the flat name holds
none of the illegal characters, so in particular no path separator. -/
theorem encryptPath_no_illegal_character (path : GoString) (n : Int) :
    (∀ b ∈ encryptPath path n, b ∉ illegalChars) ∧ Separator ∉ encryptPath path n := by
  have h : ∀ b ∈ encryptPath path n, b ∉ illegalChars := by
    intro b hb
    rw [encryptPath_eq_take] at hb
    exact encodeName_legal path n b (List.mem_of_mem_take hb)
  refine ⟨h, fun hsep => h Separator hsep (by decide)⟩

/-- C12: the flat name has at most 255 bytes and is a prefix of the untruncated name
(number, separator token, sanitized path): the whole of it when that has at most 255
bytes, its first 255 bytes otherwise. -/
theorem encryptPath_truncation (path : GoString) (n : Int) :
    (encryptPath path n).length ≤ maxFileNameLength ∧
    encodeName path n = fmt03d n ++ pathSeparator ++ path.flatMap sanitizeByte ∧
    encryptPath path n <+: encodeName path n ∧
    ((encodeName path n).length ≤ maxFileNameLength →
      encryptPath path n = encodeName path n) ∧
    (maxFileNameLength < (encodeName path n).length →
      encryptPath path n = (encodeName path n).take maxFileNameLength ∧
        (encryptPath path n).length = maxFileNameLength) := by
  refine ⟨encryptPath_length_le path n, encodeName_eq path n, ?_, ?_, ?_⟩
  · rw [encryptPath_eq_take]
    exact List.take_prefix _ _
  · intro h
    rw [encryptPath_eq_take, List.take_of_length_le h]
  · intro h
    refine ⟨encryptPath_eq_take path n, ?_⟩
    rw [encryptPath_eq_take, List.length_take]
    omega

/-- C14: `notes:v2.txt` is copied under `001_!_notes_v2.txt`, from which `decryptPath`
does not return `notes:v2.txt`; and two paths that differ only in which of the
characters replaced by an underscore (or the underscore itself) stands at a position
get the same flat name for the same number. -/
theorem sanitization_is_lossy (p q : GoString) (n : Int)
    (h : p.map underscoreClass = q.map underscoreClass) :
    encryptPath (bytes "notes:v2.txt") 1 = bytes "001_!_notes_v2.txt" ∧
    decryptPath (bytes "001_!_notes_v2.txt") ≠ bytes "notes:v2.txt" ∧
    encryptPath p n = encryptPath q n := by
  refine ⟨by decide, by decide, ?_⟩
  have key : ∀ l : GoString,
      l.flatMap sanitizeByte = (l.map underscoreClass).flatMap sanitizeByte := by
    intro l
    rw [List.flatMap_map]
    exact List.flatMap_congr (fun b _ => (sanitizeByte_underscoreClass b).symm)
  rw [encryptPath_eq_take, encryptPath_eq_take, encodeName_eq, encodeName_eq, key p, key q, h]

/-- C14, at the paths `notes:v2.txt` and `notes_v2.txt` with the number 1. -/
theorem sanitization_is_lossy_witness :
    encryptPath (bytes "notes:v2.txt") 1 = bytes "001_!_notes_v2.txt" ∧
    decryptPath (bytes "001_!_notes_v2.txt") ≠ bytes "notes:v2.txt" ∧
    encryptPath (bytes "notes:v2.txt") 1 = encryptPath (bytes "notes_v2.txt") 1 :=
  sanitization_is_lossy (bytes "notes:v2.txt") (bytes "notes_v2.txt") 1 (by decide)

/-- C15: the comparator is irreflexive and transitive, of two entries with different
paths it puts exactly one before the other, entries it does not separate are equal, and
so a list of entries has only one sorted arrangement. -/
theorem less_strict_total_order :
    (∀ a, less a a = false) ∧
    (∀ a b c, less a b = true → less b c = true → less a c = true) ∧
    (∀ a b : FileInfo, a.Path ≠ b.Path →
      (less a b = true ∧ less b a = false) ∨ (less b a = true ∧ less a b = false)) ∧
    (∀ a b c, less a b = false → less b c = false → less a c = false) ∧
    (∀ a b, less a b = false → less b a = false → a = b) ∧
    (∀ l₁ l₂ : List FileInfo, l₁.Perm l₂ → SortedByLess l₁ → SortedByLess l₂ → l₁ = l₂) := by
  refine ⟨less_irrefl, less_trans, ?_, not_less_trans, eq_of_not_less, sorted_perm_unique⟩
  intro a b hne
  have hab : a ≠ b := fun h => hne (by rw [h])
  rcases less_total a b hab with h | h
  · exact Or.inl ⟨h, less_asymm a b h⟩
  · exact Or.inr ⟨h, less_asymm b a h⟩

set_option maxRecDepth 100000 in
/-- C17: the paths `a_!/x` and `a/!_x` are distinct, hold neither the separator token
nor an illegal character other than the slash, and get the same flat name for every
number (`001_!_a_!_!_x` for 1), so no decoding function returns both. -/
theorem separator_ambiguity :
    ∃ p q : GoString, p = bytes "a_!/x" ∧ q = bytes "a/!_x" ∧ p ≠ q ∧
      index p pathSeparator = none ∧ index q pathSeparator = none ∧
      (∀ c ∈ p, c ∈ illegalChars → c = 47) ∧ (∀ c ∈ q, c ∈ illegalChars → c = 47) ∧
      encryptPath p 1 = bytes "001_!_a_!_!_x" ∧
      (∀ n : Int, encryptPath p n = encryptPath q n) ∧
      ∀ (decode : GoString → GoString) (n : Int),
        ¬ (decode (encryptPath p n) = p ∧ decode (encryptPath q n) = q) := by
  have hs : sanitizeName (bytes "a_!/x") = sanitizeName (bytes "a/!_x") := by decide
  have he : ∀ n : Int, encryptPath (bytes "a_!/x") n = encryptPath (bytes "a/!_x") n := by
    intro n
    unfold encryptPath encodeName
    rw [hs]
  refine ⟨bytes "a_!/x", bytes "a/!_x", rfl, rfl, by decide, by decide, by decide,
    by decide, by decide, by decide, he, ?_⟩
  intro decode n hdec
  have h1 := hdec.1
  rw [he n, hdec.2] at h1
  exact absurd h1 (by decide)

/-- C13: a name that splits on the separator token into fewer than three parts, which
is to say a name with fewer than two non-overlapping instances of the token, is returned
by `decryptPath` as it is; the result is a plain string, there is no error value. -/
theorem decryptPath_fallback (name : GoString)
    (h : (splitN name pathSeparator 3).length < 3 ∨ count name pathSeparator < 2) :
    decryptPath name = name ∧ (splitN name pathSeparator 3).length < 3 ∧
      count name pathSeparator < 2 := by
  have hiff := splitN_three_lt_iff name pathSeparator (by rw [pathSeparator_eq]; decide)
  have hparts : (splitN name pathSeparator 3).length < 3 := by
    rcases h with h | h
    · exact h
    · exact hiff.mpr h
  refine ⟨?_, hparts, hiff.mp hparts⟩
  unfold decryptPath
  simp only [hparts, if_true]

/-- C13, at the names `readme.txt`, without separator token, and `001_!_a.txt`, with
one. -/
theorem decryptPath_fallback_witness :
    (decryptPath (bytes "readme.txt") = bytes "readme.txt" ∧
      (splitN (bytes "readme.txt") pathSeparator 3).length < 3 ∧
      count (bytes "readme.txt") pathSeparator < 2) ∧
    (decryptPath (bytes "001_!_a.txt") = bytes "001_!_a.txt" ∧
      (splitN (bytes "001_!_a.txt") pathSeparator 3).length < 3 ∧
      count (bytes "001_!_a.txt") pathSeparator < 2) :=
  ⟨decryptPath_fallback (bytes "readme.txt") (Or.inl (by decide)),
    decryptPath_fallback (bytes "001_!_a.txt") (Or.inr (by decide))⟩

/-- C16: let `ds` be the elements of a directory `D` (none for the root), `f` a file
directly in `D` and `g` a file in a proper subdirectory `D/sub` of `D`, all paths being
cleaned relative paths.  Then the parent of `f` is `D` and that of `g` is `D/sub`, the
comparator puts `f` before `g`, `f` stands before `g` in the sorted list, both are
copied, and `f` gets the smaller number. -/
theorem parents_before_descendants (files : List FileInfo) (ds sub : List GoString)
    (nf ng : GoString) (f g : FileInfo)
    (hds : ∀ e ∈ ds, normalElement e) (hsub : ∀ e ∈ sub, normalElement e)
    (hnf : normalElement nf) (hng : normalElement ng) (hne : sub ≠ [])
    (hf : f.Path = joinPath (ds ++ [nf])) (hg : g.Path = joinPath (ds ++ sub ++ [ng]))
    (hfd : f.IsDir = false) (hgd : g.IsDir = false) (hfm : f ∈ files) (hgm : g ∈ files) :
    dir f.Path = (if ds = [] then bytes "." else joinPath ds) ∧
    dir g.Path = joinPath (ds ++ sub) ∧
    less f g = true ∧
    List.Sublist [f, g] (sortSlice files) ∧
    (∃ c₁ ∈ encryptDirectory files, c₁.file = f) ∧
    (∃ c₂ ∈ encryptDirectory files, c₂.file = g) ∧
    ∀ c₁ ∈ encryptDirectory files, ∀ c₂ ∈ encryptDirectory files,
      c₁.file = f → c₂.file = g → c₁.counter < c₂.counter := by
  have hdsub : ∀ e ∈ ds ++ sub, normalElement e := by
    intro e he
    rcases List.mem_append.mp he with h | h
    · exact hds e h
    · exact hsub e h
  have hdsub_ne : ds ++ sub ≠ [] := by
    intro h
    exact hne (List.append_eq_nil.mp h).2
  have hdf : dir f.Path = (if ds = [] then bytes "." else joinPath ds) := by
    rw [hf]
    exact dir_joinPath ds nf hds hnf
  have hdg : dir g.Path = joinPath (ds ++ sub) := by
    rw [hg, dir_joinPath (ds ++ sub) ng hdsub hng, if_neg hdsub_ne]
  have hgroot : dir g.Path ≠ bytes "." := by
    rw [hdg]
    exact joinPath_ne_dot _ hdsub_ne hdsub
  have hless : less f g = true := by
    by_cases hroot : ds = []
    · rw [if_pos hroot] at hdf
      exact less_of_root f g hdf hgroot
    · rw [if_neg hroot] at hdf
      have hfroot : dir f.Path ≠ bytes "." := by
        rw [hdf]
        exact joinPath_ne_dot _ hroot hds
      have hlt : strLt (dir f.Path) (dir g.Path) = true := by
        rw [hdf, hdg, joinPath_append ds sub hroot hne]
        exact strLt_append_cons _ _ _
      have hdne : dir f.Path ≠ dir g.Path := by
        intro h
        rw [h, strLt_irrefl] at hlt
        exact absurd hlt (by simp)
      simp [less, hfroot, hgroot, hdne, hlt]
  have hfg : f ≠ g := by
    intro h
    rw [h, less_irrefl] at hless
    exact absurd hless (by simp)
  have hs : (sortSlice files).Pairwise (fun a b => less b a = false) :=
    sortSlice_sorted files
  have hfs : f ∈ sortSlice files := (sortSlice_perm files).mem_iff.mpr hfm
  have hgs : g ∈ sortSlice files := (sortSlice_perm files).mem_iff.mpr hgm
  have hcall : ∀ x ∈ sortSlice files, x.IsDir = false →
      ∃ c ∈ encryptDirectory files, c.file = x := by
    intro x hx hxd
    have hmem : x ∈ (encryptLoop 0 (sortSlice files)).map (·.file) := by
      rw [encryptLoop_files]
      exact List.mem_filter.mpr ⟨hx, by simp [hxd]⟩
    obtain ⟨c, hc, hcx⟩ := List.mem_map.mp hmem
    exact ⟨c, hc, hcx⟩
  refine ⟨hdf, hdg, hless, ?_, hcall f hfs hfd, hcall g hgs hgd, ?_⟩
  · rcases sublist_pair_of_mem f g _ hfs hgs hfg with h | h
    · exact h
    · have := List.pairwise_iff_forall_sublist.mp hs h
      rw [hless] at this
      exact absurd this (by simp)
  · intro c₁ h₁ c₂ h₂ hc₁ hc₂
    have hp := encryptLoop_pairwise _ 0 _ hs
    have hsym : (encryptLoop 0 (sortSlice files)).Pairwise
        (fun x y => (less y.file x.file = false ∧ x.counter < y.counter) ∨
          (less x.file y.file = false ∧ y.counter < x.counter)) :=
      hp.imp (fun h => Or.inl h)
    have hcne : c₁ ≠ c₂ := by
      intro heq
      rw [heq, hc₂] at hc₁
      exact hfg hc₁.symm
    rcases hsym.forall (fun x y hxy => hxy.symm) h₁ h₂ hcne with h | h
    · exact h.2
    · rw [hc₁, hc₂, hless] at h
      exact absurd h.1 (by simp)

set_option maxRecDepth 100000 in
/-- C16, in the scenario tree: `sub/b.txt` lies directly in `sub`, `sub/deep/c.txt` in
its subdirectory `sub/deep`. -/
theorem parents_before_descendants_witness :
    dir (bytes "sub/b.txt") = (if [bytes "sub"] = [] then bytes "." else joinPath [bytes "sub"]) ∧
    dir (bytes "sub/deep/c.txt") = joinPath ([bytes "sub"] ++ [bytes "deep"]) ∧
    less ⟨bytes "sub/b.txt", false⟩ ⟨bytes "sub/deep/c.txt", false⟩ = true ∧
    List.Sublist [⟨bytes "sub/b.txt", false⟩, ⟨bytes "sub/deep/c.txt", false⟩]
      (sortSlice scenarioEntries) ∧
    (∃ c₁ ∈ encryptDirectory scenarioEntries, c₁.file = ⟨bytes "sub/b.txt", false⟩) ∧
    (∃ c₂ ∈ encryptDirectory scenarioEntries, c₂.file = ⟨bytes "sub/deep/c.txt", false⟩) ∧
    ∀ c₁ ∈ encryptDirectory scenarioEntries, ∀ c₂ ∈ encryptDirectory scenarioEntries,
      c₁.file = ⟨bytes "sub/b.txt", false⟩ → c₂.file = ⟨bytes "sub/deep/c.txt", false⟩ →
        c₁.counter < c₂.counter :=
  parents_before_descendants scenarioEntries [bytes "sub"] [bytes "deep"] (bytes "b.txt")
    (bytes "c.txt") ⟨bytes "sub/b.txt", false⟩ ⟨bytes "sub/deep/c.txt", false⟩
    (by decide) (by decide) (by decide) (by decide) (by decide) (by decide) (by decide)
    rfl rfl (by decide) (by decide)

end FlatCrypt
